import Mathlib

/-!
Verification of the message-routing pipeline of `rapidsms_httprouter/router.py`
(class `HttpRouter` plus the module-level `get_router`).

The embedding is a direct transliteration of the Python source:

* A handler application (`App`) is modelled by the value its phase method
  produces on the in-flight message: either a returned Python value
  (`PhResult.ret`) or a raised exception (`PhResult.exn`).  Python return
  values are abstracted to the four identity classes the router actually
  distinguishes with its `is True` / `is False` checks: the `True` singleton,
  the `False` singleton, `None`, and any other object.
* `runApps` is the inner `for app in self.apps` loop of `handle_incoming`
  for one phase, `runPhases` the outer `for phase in self.incoming_phases`
  loop (including the `break` at the `default`-phase check and the
  `StopIteration` raised on a filter veto, which the outer `try` catches).
* `outLoop` is the `for app in reversed(self.apps)` loop of
  `handle_outgoing`, `send_message` the delivery attempt with its
  `ROUTER_URL` guard, 2xx check and blanket `except`.
* Persisted `Message` rows are modelled by their direction and final status
  characters exactly as the source writes them ('I'/'O', 'R'→'H',
  'P'→'C'/'S'/'Q'); every status assignment in the source is immediately
  followed by `save()`, so only the final value is kept.
* The dispatch records a trace of events: each phase-method invocation,
  each `app.exception()` hook invocation, and each `send_message` call.
* `get_router`'s double-checked locking is modelled as an interleaving
  transition system over any number of threads each performing one call.
-/

namespace HttpRouter

/-- Identity classes of Python values, as distinguished by the router's
`is True` / `is False` checks: the `True` singleton, the `False` singleton,
`None`, and any other object (including truthy values such as `1` or a
non-empty string, and falsy values such as `0` or `""`). -/
inductive PyVal
  | pyTrue
  | pyFalse
  | pyNone
  | pyOther
deriving DecidableEq, Repr

/-- Result of invoking one handler phase method: a returned value, or a
raised exception (caught by the router's `except` clauses). -/
inductive PhResult
  | ret (v : PyVal)
  | exn
deriving DecidableEq, Repr

/-- The incoming phases, `HttpRouter.incoming_phases`. -/
inductive Phase
  | filter
  | parse
  | handle
  | default
  | cleanup
deriving DecidableEq, Repr

/-- A handler application: the behaviour of each incoming phase method and
of the `outgoing` method on the message being dispatched. -/
structure App where
  res : Phase → PhResult
  outgoing : PhResult

/-- Observable events of one dispatch: an incoming phase-method invocation
`func(msg)` on handler `i`, an `app.exception()` hook invocation, an
outgoing-method invocation, and a `send_message` (delivery client) call. -/
inductive Ev
  | callIn (i : Nat) (ph : Phase)
  | excHook (i : Nat)
  | callOut (i : Nat)
  | send
deriving DecidableEq, Repr

/-- How the per-phase app loop of `handle_incoming` terminates: normally, or
by the `raise(StopIteration)` of a filter veto. -/
inductive Exit
  | normal
  | veto
deriving DecidableEq, Repr

/-- `incoming_phases = ("filter", "parse", "handle", "default", "cleanup")`. -/
def incoming_phases : List Phase :=
  [.filter, .parse, .handle, .default, .cleanup]

/-- Handlers paired with their registration index, `self.apps` enumerated. -/
def enumIdx (n : Nat) : List App → List (Nat × App)
  | [] => []
  | a :: rest => (n, a) :: enumIdx (n + 1) rest

/-- The inner `for app in self.apps` loop of `handle_incoming` for one phase:
`handled = False; try: handled = func(msg) except Exception: app.exception()`
followed by the `is True` checks for the filter veto, the handle-phase
short-circuit (which sets `msg.handled`), and the default-phase
short-circuit.  Returns the `msg.handled` flag, the event trace, and how
the loop exited. -/
def runApps (ph : Phase) : List (Nat × App) → Bool → Bool × List Ev × Exit
  | [], handled => (handled, [], .normal)
  | (i, a) :: rest, handled =>
    match a.res ph with
    | .ret v =>
      if ph = .filter ∧ v = .pyTrue then
        (handled, [.callIn i ph], .veto)
      else if ph = .handle ∧ v = .pyTrue then
        (true, [.callIn i ph], .normal)
      else if ph = .default ∧ v = .pyTrue then
        (handled, [.callIn i ph], .normal)
      else
        let r := runApps ph rest handled
        (r.1, .callIn i ph :: r.2.1, r.2.2)
    | .exn =>
      let r := runApps ph rest handled
      (r.1, .callIn i ph :: .excHook i :: r.2.1, r.2.2)

/-- The outer `for phase in self.incoming_phases` loop of `handle_incoming`:
the `default`-phase entry check does `break` (leaving the whole phase loop)
when `msg.handled` is set; a filter veto's `StopIteration` aborts all
remaining phases and is caught by the surrounding `try`. -/
def runPhases (l : List (Nat × App)) : List Phase → Bool → List Ev
  | [], _ => []
  | ph :: rest, handled =>
    if ph = .default ∧ handled = true then []
    else
      let r := runApps ph l handled
      match r.2.2 with
      | .veto => r.2.1
      | .normal => r.2.1 ++ runPhases l rest r.1

/-- A persisted Message row: its direction character and final status
character, as written by the source (`'I'`/`'O'`; `'H'`, `'C'`, `'S'`,
`'Q'`). -/
structure Msg where
  dir : Char
  status : Char
deriving DecidableEq, Repr

/-- The delivery environment of `send_message`: whether `settings.ROUTER_URL`
is set (non-empty), and what `urlopen` does — raise a transport error or
return a response with an HTTP status code. -/
structure GW where
  routerUrl : Bool
  response : Except Unit Nat

/-- `HttpRouter.send_message`: without `ROUTER_URL` the message is queued
(`'Q'`); otherwise `urlopen` is attempted inside a `try`, a response code
with `int(code/100) == 2` marks the message sent (`'S'`), any other code or
any exception queues it (`'Q'`).  Total: every branch of the source ends in
a status assignment, never a raise. -/
def send_message (gw : GW) : Char :=
  if gw.routerUrl = false then 'Q'
  else
    match gw.response with
    | .error _ => 'Q'
    | .ok code => if code / 100 = 2 then 'S' else 'Q'

/-- Result of `handle_outgoing`: the final persisted status of the outbound
Message, the event trace, and whether the function returned `False`
(cancellation) rather than the message. -/
structure OutRes where
  status : Char
  events : List Ev
  cancelled : Bool
deriving DecidableEq, Repr

/-- The `for app in reversed(self.apps)` loop of `handle_outgoing` with the
phase variable fixed to `"outgoing"`: `continue_sending = func(msg)` inside a
`try` whose `except` calls `app.exception()` and leaves `continue_sending`
unchanged; after each handler, `continue_sending is False` cancels the
message (`status = 'C'`, return `False`); when the loop finishes,
`send_message` runs. -/
def outLoop (gw : GW) : List (Nat × App) → PyVal → OutRes
  | [], _ => ⟨send_message gw, [.send], false⟩
  | (i, a) :: rest, cs =>
    match a.outgoing with
    | .ret v =>
      if v = .pyFalse then ⟨'C', [.callOut i], true⟩
      else
        let r := outLoop gw rest v
        ⟨r.status, .callOut i :: r.events, r.cancelled⟩
    | .exn =>
      if cs = .pyFalse then ⟨'C', [.callOut i, .excHook i], true⟩
      else
        let r := outLoop gw rest cs
        ⟨r.status, .callOut i :: .excHook i :: r.events, r.cancelled⟩

/-- `HttpRouter.handle_outgoing`: create the outbound Message (status `'P'`),
then run the outgoing loop over the reversed handler list with
`continue_sending` initialised to `True`. -/
def handle_outgoing (apps : List App) (gw : GW) : OutRes :=
  outLoop gw (enumIdx 0 apps).reverse .pyTrue

/-- Result of `handle_incoming`: the event trace and the persisted store —
the inbound Message followed by one outbound Message per drained response,
each with its final status. -/
structure InRes where
  events : List Ev
  store : List Msg
deriving DecidableEq, Repr

/-- `HttpRouter.handle_incoming`: persist the inbound Message (created
`'R'`), run the phase loop inside `try ... except StopIteration`, set the
status to `'H'` and save, then pop each queued response in FIFO order and
pass it through `handle_outgoing`.  `m` is the number of responses the
handlers queued on `msg.responses` during dispatch. -/
def handle_incoming (apps : List App) (gw : GW) (m : Nat) : InRes :=
  let outs := (List.range m).map fun _ => handle_outgoing apps gw
  { events := runPhases (enumIdx 0 apps) incoming_phases false
      ++ (outs.map OutRes.events).flatten
  , store := ⟨'I', 'H'⟩ :: outs.map fun o => ⟨'O', o.status⟩ }

/-- Extracts the handler index of an outgoing-method invocation event. -/
def outF : Ev → Option Nat
  | .callOut i => some i
  | _ => none

/-- The registration indices whose outgoing method was invoked, in order. -/
def outIdx (r : OutRes) : List Nat :=
  r.events.filterMap outF

/-- A delivery environment with no `ROUTER_URL` configured. -/
def gw0 : GW := ⟨false, .error ()⟩

/-- A handler whose every method raises. -/
def appExn : App := ⟨fun _ => .exn, .exn⟩

/-- A handler whose filter method returns the `True` singleton. -/
def vetoApp : App := ⟨fun _ => .ret .pyTrue, .ret .pyNone⟩

/-- A handler whose handle method returns the `True` singleton and whose
other methods return `None`. -/
def hTrueApp : App :=
  ⟨fun ph => if ph = .handle then .ret .pyTrue else .ret .pyNone, .ret .pyNone⟩

/-- A handler whose every method returns `None`. -/
def nopApp : App := ⟨fun _ => .ret .pyNone, .ret .pyNone⟩

/-- A handler whose outgoing method returns the `False` singleton. -/
def cancelApp : App := ⟨fun _ => .ret .pyNone, .ret .pyFalse⟩

/-- A handler whose every method returns a truthy non-`True` object (such as
`1` or a non-empty string). -/
def otherApp : App := ⟨fun _ => .ret .pyOther, .ret .pyOther⟩

/-- Program counter of one thread executing `get_router`: about to test
`http_router.started` without the lock (`p0`), waiting to acquire the lock
(`p1`), holding the lock about to re-test `started` (`p2`), about to run the
body of `HttpRouter.start` — handler registration, `app.start()` calls and
backlog hydration (`p3`), about to execute `self.started = True` at the end
of `start` (`pset`), about to release the lock (`p4`), or finished
(`done`). -/
inductive PC
  | p0
  | p1
  | p2
  | p3
  | pset
  | p4
  | done
deriving DecidableEq, Repr

/-- Shared state for `n` threads concurrently calling `get_router` for the
first time: each thread's program counter, the holder of
`http_router_lock`, the `http_router.started` flag, and how many times the
body of `HttpRouter.start` has been executed. -/
structure RState (n : Nat) where
  pcs : Fin n → PC
  lock : Option (Fin n)
  started : Bool
  startCount : Nat

/-- Initial state: every thread about to call `get_router`, lock free,
router not started. -/
def initState (n : Nat) : RState n :=
  ⟨fun _ => .p0, none, false, 0⟩

/-- One interleaved step of `get_router`: the unlocked `started` test, the
`acquire`, the locked re-test, the `start()` body, the final
`self.started = True` assignment, and the `release` in the `finally`. -/
inductive Step {n : Nat} : RState n → RState n → Prop
  | checkStarted (s : RState n) (t : Fin n) :
      s.pcs t = .p0 → s.started = true →
      Step s { s with pcs := Function.update s.pcs t .done }
  | checkNotStarted (s : RState n) (t : Fin n) :
      s.pcs t = .p0 → s.started = false →
      Step s { s with pcs := Function.update s.pcs t .p1 }
  | acquire (s : RState n) (t : Fin n) :
      s.pcs t = .p1 → s.lock = none →
      Step s { s with pcs := Function.update s.pcs t .p2, lock := some t }
  | recheckStarted (s : RState n) (t : Fin n) :
      s.pcs t = .p2 → s.started = true →
      Step s { s with pcs := Function.update s.pcs t .p4 }
  | recheckNotStarted (s : RState n) (t : Fin n) :
      s.pcs t = .p2 → s.started = false →
      Step s { s with pcs := Function.update s.pcs t .p3 }
  | runStart (s : RState n) (t : Fin n) :
      s.pcs t = .p3 →
      Step s { s with pcs := Function.update s.pcs t .pset,
                      startCount := s.startCount + 1 }
  | setStarted (s : RState n) (t : Fin n) :
      s.pcs t = .pset →
      Step s { s with pcs := Function.update s.pcs t .p4, started := true }
  | release (s : RState n) (t : Fin n) :
      s.pcs t = .p4 →
      Step s { s with pcs := Function.update s.pcs t .done, lock := none }

/-- States reachable by interleaving any number of `get_router` calls. -/
def Reachable {n : Nat} (s : RState n) : Prop :=
  Relation.ReflTransGen Step (initState n) s

/-- Inductive invariant of the double-checked lock: the lock guards the
critical section, the `start` body has run at most once, `started` tracks
it, and a finished thread has observed `started`. -/
structure Inv {n : Nat} (s : RState n) : Prop where
  mutex : ∀ t, (s.pcs t = .p2 ∨ s.pcs t = .p3 ∨ s.pcs t = .pset ∨
    s.pcs t = .p4) → s.lock = some t
  countLe : s.startCount ≤ 1
  startedCount : s.started = true → s.startCount = 1
  notStartedCount : s.started = false →
    s.startCount = 0 ∨ ∃ t, s.pcs t = .pset
  p3inv : ∀ t, s.pcs t = .p3 → s.started = false ∧ s.startCount = 0
  psetinv : ∀ t, s.pcs t = .pset → s.started = false ∧ s.startCount = 1
  p4started : ∀ t, s.pcs t = .p4 → s.started = true
  doneStarted : ∀ t, s.pcs t = .done → s.started = true

/-- Witness run, one thread: the states of the single uncontended
`get_router` call, step by step. -/
def w0 : RState 1 := initState 1

/-- After the unlocked `started` test fails. -/
def w1 : RState 1 := { w0 with pcs := Function.update w0.pcs 0 .p1 }

/-- After acquiring the lock. -/
def w2 : RState 1 :=
  { w1 with pcs := Function.update w1.pcs 0 .p2, lock := some 0 }

/-- After the locked re-test fails. -/
def w3 : RState 1 := { w2 with pcs := Function.update w2.pcs 0 .p3 }

/-- After running the `start()` body. -/
def w4 : RState 1 :=
  { w3 with pcs := Function.update w3.pcs 0 .pset,
            startCount := w3.startCount + 1 }

/-- After `self.started = True`. -/
def w5 : RState 1 :=
  { w4 with pcs := Function.update w4.pcs 0 .p4, started := true }

/-- After releasing the lock: the call is finished. -/
def w6 : RState 1 :=
  { w5 with pcs := Function.update w5.pcs 0 .done, lock := none }

/-- Every event of one incoming phase's app loop is an invocation of that
phase or an exception-hook call. -/
lemma runApps_events (ph : Phase) (l : List (Nat × App)) (h : Bool) :
    ∀ ev ∈ (runApps ph l h).2.1,
      (∃ i, ev = Ev.callIn i ph) ∨ ∃ i, ev = Ev.excHook i := by
  induction l generalizing h with
  | nil => intro ev hev; simp [runApps] at hev
  | cons p rest ih =>
    obtain ⟨i, a⟩ := p
    intro ev hev
    cases hr : a.res ph with
    | ret v =>
      simp only [runApps, hr] at hev
      split_ifs at hev <;>
        simp only [List.mem_cons, List.not_mem_nil, or_false] at hev
      · exact Or.inl ⟨i, hev⟩
      · exact Or.inl ⟨i, hev⟩
      · exact Or.inl ⟨i, hev⟩
      · rcases hev with hev | hev
        · exact Or.inl ⟨i, hev⟩
        · exact ih _ ev hev
    | exn =>
      simp only [runApps, hr, List.mem_cons] at hev
      rcases hev with hev | hev | hev
      · exact Or.inl ⟨i, hev⟩
      · exact Or.inr ⟨i, hev⟩
      · exact ih _ ev hev

/-- Only the handle phase can change the `msg.handled` flag. -/
lemma runApps_flag (ph : Phase) (hph : ph ≠ .handle) (l : List (Nat × App))
    (h : Bool) : (runApps ph l h).1 = h := by
  induction l generalizing h with
  | nil => simp [runApps]
  | cons p rest ih =>
    obtain ⟨i, a⟩ := p
    cases hr : a.res ph with
    | ret v =>
      simp only [runApps, hr]
      split_ifs with h1 h2 h3
      · rfl
      · exact absurd h2.1 hph
      · rfl
      · exact ih h
    | exn => simp only [runApps, hr]; exact ih h

/-- Only the filter phase can raise the `StopIteration` veto. -/
lemma runApps_exit (ph : Phase) (hph : ph ≠ .filter) (l : List (Nat × App))
    (h : Bool) : (runApps ph l h).2.2 = .normal := by
  induction l generalizing h with
  | nil => simp [runApps]
  | cons p rest ih =>
    obtain ⟨i, a⟩ := p
    cases hr : a.res ph with
    | ret v =>
      simp only [runApps, hr]
      split_ifs with h1 h2 h3
      · exact absurd h1.1 hph
      · rfl
      · rfl
      · exact ih h
    | exn => simp only [runApps, hr]; exact ih h

/-- If some handler's filter method returns the `True` singleton, the filter
phase ends in the veto. -/
lemma runApps_filter_veto (l : List (Nat × App)) (h : Bool)
    (hex : ∃ p ∈ l, p.2.res .filter = .ret .pyTrue) :
    (runApps .filter l h).2.2 = .veto := by
  induction l generalizing h with
  | nil => simp at hex
  | cons p rest ih =>
    obtain ⟨i, a⟩ := p
    rcases hex with ⟨q, hq, hqt⟩
    rw [List.mem_cons] at hq
    rcases hq with rfl | hq
    · have hqt' : a.res .filter = .ret .pyTrue := hqt
      simp [runApps, hqt']
    · cases hr : a.res .filter with
      | ret v =>
        simp only [runApps, hr]
        split_ifs with h1 h2
        · rfl
        · exact h2.1.elim
        · exact ih h ⟨q, hq, hqt⟩
      | exn => simp only [runApps, hr]; exact ih h ⟨q, hq, hqt⟩

/-- If some handler's handle method returns the `True` singleton, the handle
phase leaves `msg.handled` set. -/
lemma runApps_handle_flag (l : List (Nat × App)) (h : Bool)
    (hex : ∃ p ∈ l, p.2.res .handle = .ret .pyTrue) :
    (runApps .handle l h).1 = true := by
  induction l generalizing h with
  | nil => simp at hex
  | cons p rest ih =>
    obtain ⟨i, a⟩ := p
    rcases hex with ⟨q, hq, hqt⟩
    rw [List.mem_cons] at hq
    rcases hq with rfl | hq
    · have hqt' : a.res .handle = .ret .pyTrue := hqt
      simp [runApps, hqt']
    · cases hr : a.res .handle with
      | ret v =>
        by_cases hv : v = .pyTrue
        · subst hv; simp [runApps, hr]
        · simp only [runApps, hr]
          rw [if_neg (by simp), if_neg (by simp [hv]), if_neg (by simp)]
          exact ih h ⟨q, hq, hqt⟩
      | exn => simp only [runApps, hr]; exact ih h ⟨q, hq, hqt⟩

/-- Handle-phase short-circuit: a handler registered after one whose handle
method returns the `True` singleton is never invoked in the handle phase. -/
lemma runApps_handle_skip (apps : List App) (n : Nat) (h : Bool) (j : Nat)
    (hex : ∃ k b, apps.get? k = some b ∧ b.res .handle = .ret .pyTrue ∧ n + k < j) :
    Ev.callIn j .handle ∉ (runApps .handle (enumIdx n apps) h).2.1 := by
  induction apps generalizing n h with
  | nil => rcases hex with ⟨k, b, hk, -⟩; simp at hk
  | cons a rest ih =>
    have hnj : n < j := by
      rcases hex with ⟨k, b, -, -, hkj⟩
      omega
    rcases hex with ⟨k, b, hk, hbt, hkj⟩
    rw [enumIdx]
    cases hr : a.res .handle with
    | ret v =>
      by_cases hv : v = .pyTrue
      · subst hv
        simp only [runApps, hr]
        rw [if_neg (by simp), if_pos (by simp)]
        intro hmem
        simp at hmem
        omega
      · have hrest : ∃ kk bb, rest.get? kk = some bb ∧
            bb.res .handle = .ret .pyTrue ∧ (n + 1) + kk < j := by
          cases k with
          | zero =>
            simp at hk
            subst hk
            rw [hr] at hbt
            cases hbt
            exact absurd rfl hv
          | succ kk =>
            refine ⟨kk, b, ?_, hbt, by omega⟩
            simpa using hk
        simp only [runApps, hr]
        rw [if_neg (by simp), if_neg (by simp [hv]), if_neg (by simp)]
        intro hmem
        simp only [List.mem_cons] at hmem
        rcases hmem with hmem | hmem
        · cases hmem; omega
        · exact ih (n + 1) h hrest hmem
    | exn =>
      have hrest : ∃ kk bb, rest.get? kk = some bb ∧
          bb.res .handle = .ret .pyTrue ∧ (n + 1) + kk < j := by
        cases k with
        | zero =>
          simp at hk
          subst hk
          rw [hr] at hbt
          cases hbt
        | succ kk =>
          refine ⟨kk, b, ?_, hbt, by omega⟩
          simpa using hk
      simp only [runApps, hr]
      intro hmem
      simp only [List.mem_cons] at hmem
      rcases hmem with hmem | hmem | hmem
      · cases hmem; omega
      · cases hmem
      · exact ih (n + 1) h hrest hmem

/-- `send_message` writes one of the two statuses Sent or Queued. -/
lemma send_message_cases (gw : GW) :
    send_message gw = 'S' ∨ send_message gw = 'Q' := by
  rcases gw with ⟨url, resp⟩
  cases url
  · simp [send_message]
  · cases resp with
    | error e => simp [send_message]
    | ok code =>
      simp only [send_message]
      split_ifs <;> simp

/-- Every event of the outgoing loop is an outgoing-method invocation, an
exception-hook call, or the delivery attempt. -/
lemma outLoop_events (gw : GW) (l : List (Nat × App)) (cs : PyVal) :
    ∀ ev ∈ (outLoop gw l cs).events,
      (∃ i, ev = Ev.callOut i) ∨ (∃ i, ev = Ev.excHook i) ∨ ev = Ev.send := by
  induction l generalizing cs with
  | nil =>
    intro ev hev
    simp [outLoop] at hev
    subst hev
    exact Or.inr (Or.inr rfl)
  | cons p rest ih =>
    obtain ⟨i, a⟩ := p
    intro ev hev
    cases hr : a.outgoing with
    | ret v =>
      simp only [outLoop, hr] at hev
      split_ifs at hev
      · simp only [List.mem_cons, List.not_mem_nil, or_false] at hev
        exact Or.inl ⟨i, hev⟩
      · simp only [List.mem_cons] at hev
        rcases hev with hev | hev
        · exact Or.inl ⟨i, hev⟩
        · exact ih _ ev hev
    | exn =>
      simp only [outLoop, hr] at hev
      split_ifs at hev
      · simp only [List.mem_cons, List.not_mem_nil, or_false] at hev
        rcases hev with hev | hev
        · exact Or.inl ⟨i, hev⟩
        · exact Or.inr (Or.inl ⟨i, hev⟩)
      · simp only [List.mem_cons] at hev
        rcases hev with hev | hev | hev
        · exact Or.inl ⟨i, hev⟩
        · exact Or.inr (Or.inl ⟨i, hev⟩)
        · exact ih _ ev hev

/-- The outgoing loop ends with status Cancelled or with whatever
`send_message` wrote. -/
lemma outLoop_status (gw : GW) (l : List (Nat × App)) (cs : PyVal) :
    (outLoop gw l cs).status = 'C' ∨
      (outLoop gw l cs).status = send_message gw := by
  induction l generalizing cs with
  | nil => simp [outLoop]
  | cons p rest ih =>
    obtain ⟨i, a⟩ := p
    cases hr : a.outgoing with
    | ret v =>
      simp only [outLoop, hr]
      split_ifs
      · exact Or.inl rfl
      · exact ih v
    | exn =>
      simp only [outLoop, hr]
      split_ifs
      · exact Or.inl rfl
      · exact ih cs

/-- If no handler's outgoing method returns the `False` singleton and the
running signal is not `False`, the loop consults every handler in order and
then attempts delivery. -/
lemma outLoop_nocancel (gw : GW) (l : List (Nat × App)) (cs : PyVal)
    (hcs : cs ≠ .pyFalse) (hl : ∀ p ∈ l, p.2.outgoing ≠ .ret .pyFalse) :
    (outLoop gw l cs).events.filterMap outF = l.map Prod.fst ∧
    (outLoop gw l cs).status = send_message gw ∧
    (outLoop gw l cs).cancelled = false ∧
    Ev.send ∈ (outLoop gw l cs).events := by
  induction l generalizing cs with
  | nil => simp [outLoop, outF]
  | cons p rest ih =>
    obtain ⟨i, a⟩ := p
    cases hr : a.outgoing with
    | ret v =>
      have hv : v ≠ .pyFalse := by
        intro hveq
        exact hl (i, a) (by simp) (by rw [hr, hveq])
      have hrest := ih v hv (fun q hq => hl q (List.mem_cons_of_mem _ hq))
      simp only [outLoop, hr]
      rw [if_neg hv]
      simpa [outF, hrest.1] using hrest
    | exn =>
      have hrest := ih cs hcs (fun q hq => hl q (List.mem_cons_of_mem _ hq))
      simp only [outLoop, hr]
      rw [if_neg hcs]
      simpa [outF, hrest.1] using hrest

/-- If some handler's outgoing method returns the `False` singleton, the loop
cancels at the first such handler: status Cancelled, `handle_outgoing`
returns `False`, delivery is never attempted, and the consulted handlers are
exactly those up to and including the canceller — the list splits as a
canceller-free prefix, the canceller, and an unconsulted remainder. -/
lemma outLoop_cancel (gw : GW) (l : List (Nat × App)) (cs : PyVal)
    (hcs : cs ≠ .pyFalse) (hl : ∃ p ∈ l, p.2.outgoing = .ret .pyFalse) :
    (outLoop gw l cs).status = 'C' ∧
    (outLoop gw l cs).cancelled = true ∧
    Ev.send ∉ (outLoop gw l cs).events ∧
    ∃ l1 c b l2, l = l1 ++ (c, b) :: l2 ∧
      (∀ p ∈ l1, p.2.outgoing ≠ .ret .pyFalse) ∧
      b.outgoing = .ret .pyFalse ∧
      (outLoop gw l cs).events.filterMap outF = l1.map Prod.fst ++ [c] := by
  induction l generalizing cs with
  | nil => simp at hl
  | cons p rest ih =>
    obtain ⟨i, a⟩ := p
    cases hr : a.outgoing with
    | ret v =>
      by_cases hv : v = .pyFalse
      · subst hv
        simp only [outLoop, hr, if_true]
        exact ⟨by simp, by simp, by simp, [], i, a, rest, rfl, by simp, hr,
          by simp [outF]⟩
      · have hlrest : ∃ p ∈ rest, p.2.outgoing = .ret .pyFalse := by
          rcases hl with ⟨q, hq, hqf⟩
          rw [List.mem_cons] at hq
          rcases hq with rfl | hq
          · rw [hr] at hqf
            cases hqf
            exact absurd rfl hv
          · exact ⟨q, hq, hqf⟩
        obtain ⟨hs, hc, hns, l1, c, b, l2, hdec, hcl, hbf, hflt⟩ :=
          ih v hv hlrest
        simp only [outLoop, hr]
        rw [if_neg hv]
        refine ⟨hs, hc, ?_, (i, a) :: l1, c, b, l2, by rw [hdec]; rfl, ?_,
          hbf, ?_⟩
        · simp only [List.mem_cons]
          rintro (h | h)
          · cases h
          · exact hns h
        · intro q hq
          rcases List.mem_cons.mp hq with rfl | hq
          · intro hcon
            rw [hr] at hcon
            injection hcon with h2
            exact hv h2
          · exact hcl q hq
        · simp [outF, hflt]
    | exn =>
      have hlrest : ∃ p ∈ rest, p.2.outgoing = .ret .pyFalse := by
        rcases hl with ⟨q, hq, hqf⟩
        rw [List.mem_cons] at hq
        rcases hq with rfl | hq
        · rw [hr] at hqf
          cases hqf
        · exact ⟨q, hq, hqf⟩
      obtain ⟨hs, hc, hns, l1, c, b, l2, hdec, hcl, hbf, hflt⟩ :=
        ih cs hcs hlrest
      simp only [outLoop, hr]
      rw [if_neg hcs]
      refine ⟨hs, hc, ?_, (i, a) :: l1, c, b, l2, by rw [hdec]; rfl, ?_,
        hbf, ?_⟩
      · simp only [List.mem_cons]
        rintro (h | h | h)
        · cases h
        · cases h
        · exact hns h
      · intro q hq
        rcases List.mem_cons.mp hq with rfl | hq
        · intro hcon
          rw [hr] at hcon
          cases hcon
        · exact hcl q hq
      · simp [outF, hflt]

/-- Taking one past a prefix of an append keeps the prefix and the next
element. -/
lemma take_len_append_cons {α : Type} (xs : List α) (y : α) (ys : List α) :
    (xs ++ y :: ys).take (xs.length + 1) = xs ++ [y] := by
  induction xs with
  | nil => simp
  | cons x xs ih => simp [ih]

/-- An outgoing-method invocation of handler `j` is recorded iff `j` is
among the consulted indices. -/
lemma callOut_mem_iff (r : OutRes) (j : Nat) :
    Ev.callOut j ∈ r.events ↔ j ∈ outIdx r := by
  rw [outIdx, List.mem_filterMap]
  constructor
  · intro h
    exact ⟨Ev.callOut j, h, rfl⟩
  · rintro ⟨ev, hev, hj⟩
    cases ev with
    | callOut i =>
      simp [outF] at hj
      subst hj
      exact hev
    | callIn i ph => simp [outF] at hj
    | excHook i => simp [outF] at hj
    | send => simp [outF] at hj

/-- The indices of the enumerated handler list are `n, n+1, ...` in order. -/
lemma enumIdx_map_fst (n : Nat) (l : List App) :
    (enumIdx n l).map Prod.fst = List.range' n l.length := by
  induction l generalizing n with
  | nil => simp [enumIdx]
  | cons a rest ih => simp [enumIdx, List.range'_succ, ih]

/-- Every registered handler appears in the enumerated list. -/
lemma mem_enumIdx_of_mem {a : App} {l : List App} (n : Nat) (h : a ∈ l) :
    ∃ i, (i, a) ∈ enumIdx n l := by
  induction l generalizing n with
  | nil => simp at h
  | cons b rest ih =>
    rw [List.mem_cons] at h
    rcases h with rfl | h
    · exact ⟨n, by simp [enumIdx]⟩
    · obtain ⟨i, hi⟩ := ih (n + 1) h
      exact ⟨i, by simp [enumIdx, hi]⟩

/-- The second component of an enumerated entry is a registered handler. -/
lemma mem_of_mem_enumIdx {i : Nat} {a : App} {l : List App} {n : Nat}
    (h : (i, a) ∈ enumIdx n l) : a ∈ l := by
  induction l generalizing n with
  | nil => simp [enumIdx] at h
  | cons b rest ih =>
    simp only [enumIdx, List.mem_cons] at h
    rcases h with h | h
    · cases h
      simp
    · exact List.mem_cons_of_mem _ (ih h)

/-- An enumerated entry records its handler's registration position. -/
lemma get?_of_mem_enumIdx {i : Nat} {a : App} {l : List App} {n : Nat}
    (h : (i, a) ∈ enumIdx n l) : ∃ k, i = n + k ∧ l.get? k = some a := by
  induction l generalizing n with
  | nil => simp [enumIdx] at h
  | cons b rest ih =>
    simp only [enumIdx, List.mem_cons] at h
    rcases h with h | h
    · cases h
      exact ⟨0, by omega, rfl⟩
    · obtain ⟨k, hk1, hk2⟩ := ih h
      exact ⟨k + 1, by omega, by simpa using hk2⟩

/-- An incoming phase invocation appears in a dispatch's full event trace
iff it appears in the incoming phase loop (the drained responses only add
outgoing events). -/
lemma handle_incoming_callIn (apps : List App) (gw : GW) (m : Nat)
    (j : Nat) (ph : Phase) :
    Ev.callIn j ph ∈ (handle_incoming apps gw m).events ↔
      Ev.callIn j ph ∈ runPhases (enumIdx 0 apps) incoming_phases false := by
  simp only [handle_incoming, List.mem_append]
  constructor
  · rintro (h | h)
    · exact h
    · exfalso
      rw [List.mem_flatten] at h
      obtain ⟨es, hes, hmem⟩ := h
      simp only [List.mem_map] at hes
      obtain ⟨o, ⟨x, hx, rfl⟩, rfl⟩ := hes
      simp only [handle_outgoing] at hmem
      have := outLoop_events gw (enumIdx 0 apps).reverse .pyTrue _ hmem
      rcases this with ⟨i, hi⟩ | ⟨i, hi⟩ | hi <;> cases hi
  · exact Or.inl

/-- The store written by an inbound dispatch: the inbound Message finalised
Handled, then one outbound Message per response. -/
lemma handle_incoming_store (apps : List App) (gw : GW) (m : Nat) :
    (handle_incoming apps gw m).store =
      Msg.mk 'I' 'H' ::
        (List.range m).map fun _ => Msg.mk 'O' (handle_outgoing apps gw).status := by
  simp [handle_incoming, Function.comp]

/-- Under a filter veto the phase loop produces only the filter phase's
events. -/
lemma runPhases_veto (l : List (Nat × App))
    (hv : (runApps .filter l false).2.2 = .veto) :
    runPhases l incoming_phases false = (runApps .filter l false).2.1 := by
  simp [incoming_phases, runPhases, hv]

/-- Without a veto, and with `msg.handled` set by the handle phase, the phase
loop runs filter, parse and handle and then breaks at the `default` check:
neither the default nor the cleanup phase produces any event. -/
lemma runPhases_handled (l : List (Nat × App))
    (hnv : (runApps .filter l false).2.2 = .normal)
    (hh : (runApps .handle l false).1 = true) :
    runPhases l incoming_phases false =
      (runApps .filter l false).2.1 ++ (runApps .parse l false).2.1 ++
        (runApps .handle l false).2.1 := by
  have hf : (runApps .filter l false).1 = false :=
    runApps_flag _ (by decide) _ _
  have hp : (runApps .parse l false).1 = false :=
    runApps_flag _ (by decide) _ _
  have hpe : (runApps .parse l false).2.2 = .normal :=
    runApps_exit _ (by decide) _ _
  have hhe : (runApps .handle l false).2.2 = .normal :=
    runApps_exit _ (by decide) _ _
  simp [incoming_phases, runPhases, hnv, hf, hp, hpe, hhe, hh, List.append_assoc]

/-- The invariant holds initially. -/
lemma inv_init (n : Nat) : Inv (initState n) := by
  refine ⟨?_, ?_, ?_, ?_, ?_, ?_, ?_, ?_⟩ <;>
    simp [initState]

/-- The invariant is preserved by every interleaved step of `get_router`. -/
lemma inv_step {n : Nat} {s s' : RState n} (hinv : Inv s) (hstep : Step s s') :
    Inv s' := by
  cases hstep with
  | checkStarted t ht hs =>
    refine ⟨?_, hinv.countLe, hinv.startedCount, ?_, ?_, ?_, ?_, ?_⟩
    · intro u hu
      dsimp only at hu ⊢
      by_cases he : u = t
      · subst he
        rw [Function.update_same] at hu
        rcases hu with h | h | h | h <;> cases h
      · rw [Function.update_noteq he] at hu
        exact hinv.mutex u hu
    · intro hf
      dsimp only at hf ⊢
      rw [hs] at hf
      exact absurd hf (by decide)
    · intro u hu
      dsimp only at hu ⊢
      by_cases he : u = t
      · subst he; rw [Function.update_same] at hu; cases hu
      · rw [Function.update_noteq he] at hu
        exact hinv.p3inv u hu
    · intro u hu
      dsimp only at hu ⊢
      by_cases he : u = t
      · subst he; rw [Function.update_same] at hu; cases hu
      · rw [Function.update_noteq he] at hu
        exact hinv.psetinv u hu
    · intro u hu
      dsimp only at hu ⊢
      by_cases he : u = t
      · subst he; rw [Function.update_same] at hu; cases hu
      · rw [Function.update_noteq he] at hu
        exact hinv.p4started u hu
    · intro u hu
      dsimp only at hu ⊢
      exact hs
  | checkNotStarted t ht hs =>
    refine ⟨?_, hinv.countLe, hinv.startedCount, ?_, ?_, ?_, ?_, ?_⟩
    · intro u hu
      dsimp only at hu ⊢
      by_cases he : u = t
      · subst he
        rw [Function.update_same] at hu
        rcases hu with h | h | h | h <;> cases h
      · rw [Function.update_noteq he] at hu
        exact hinv.mutex u hu
    · intro hf
      dsimp only at hf ⊢
      rcases hinv.notStartedCount hf with h0 | ⟨u, hu⟩
      · exact Or.inl h0
      · refine Or.inr ⟨u, ?_⟩
        have hne : u ≠ t := by
          intro he; rw [he, ht] at hu; cases hu
        rw [Function.update_noteq hne]
        exact hu
    · intro u hu
      dsimp only at hu ⊢
      by_cases he : u = t
      · subst he; rw [Function.update_same] at hu; cases hu
      · rw [Function.update_noteq he] at hu
        exact hinv.p3inv u hu
    · intro u hu
      dsimp only at hu ⊢
      by_cases he : u = t
      · subst he; rw [Function.update_same] at hu; cases hu
      · rw [Function.update_noteq he] at hu
        exact hinv.psetinv u hu
    · intro u hu
      dsimp only at hu ⊢
      by_cases he : u = t
      · subst he; rw [Function.update_same] at hu; cases hu
      · rw [Function.update_noteq he] at hu
        exact hinv.p4started u hu
    · intro u hu
      dsimp only at hu ⊢
      by_cases he : u = t
      · subst he; rw [Function.update_same] at hu; cases hu
      · rw [Function.update_noteq he] at hu
        exact hinv.doneStarted u hu
  | acquire t ht hl =>
    refine ⟨?_, hinv.countLe, hinv.startedCount, ?_, ?_, ?_, ?_, ?_⟩
    · intro u hu
      dsimp only at hu ⊢
      by_cases he : u = t
      · subst he; rfl
      · rw [Function.update_noteq he] at hu
        have := hinv.mutex u hu
        rw [hl] at this
        cases this
    · intro hf
      dsimp only at hf ⊢
      rcases hinv.notStartedCount hf with h0 | ⟨u, hu⟩
      · exact Or.inl h0
      · have := hinv.mutex u (Or.inr (Or.inr (Or.inl hu)))
        rw [hl] at this
        cases this
    · intro u hu
      dsimp only at hu ⊢
      by_cases he : u = t
      · subst he; rw [Function.update_same] at hu; cases hu
      · rw [Function.update_noteq he] at hu
        have := hinv.mutex u (Or.inr (Or.inl hu))
        rw [hl] at this
        cases this
    · intro u hu
      dsimp only at hu ⊢
      by_cases he : u = t
      · subst he; rw [Function.update_same] at hu; cases hu
      · rw [Function.update_noteq he] at hu
        have := hinv.mutex u (Or.inr (Or.inr (Or.inl hu)))
        rw [hl] at this
        cases this
    · intro u hu
      dsimp only at hu ⊢
      by_cases he : u = t
      · subst he; rw [Function.update_same] at hu; cases hu
      · rw [Function.update_noteq he] at hu
        exact hinv.p4started u hu
    · intro u hu
      dsimp only at hu ⊢
      by_cases he : u = t
      · subst he; rw [Function.update_same] at hu; cases hu
      · rw [Function.update_noteq he] at hu
        exact hinv.doneStarted u hu
  | recheckStarted t ht hs =>
    have hlt : s.lock = some t := hinv.mutex t (Or.inl ht)
    refine ⟨?_, hinv.countLe, hinv.startedCount, ?_, ?_, ?_, ?_, ?_⟩
    · intro u hu
      dsimp only at hu ⊢
      by_cases he : u = t
      · subst he; exact hlt
      · rw [Function.update_noteq he] at hu
        exact hinv.mutex u hu
    · intro hf
      dsimp only at hf ⊢
      rw [hs] at hf
      exact absurd hf (by decide)
    · intro u hu
      dsimp only at hu ⊢
      by_cases he : u = t
      · subst he; rw [Function.update_same] at hu; cases hu
      · rw [Function.update_noteq he] at hu
        have h1 := hinv.mutex u (Or.inr (Or.inl hu))
        rw [hlt] at h1
        injection h1 with h1
        exact absurd h1.symm he
    · intro u hu
      dsimp only at hu ⊢
      by_cases he : u = t
      · subst he; rw [Function.update_same] at hu; cases hu
      · rw [Function.update_noteq he] at hu
        have h1 := hinv.mutex u (Or.inr (Or.inr (Or.inl hu)))
        rw [hlt] at h1
        injection h1 with h1
        exact absurd h1.symm he
    · intro u hu
      dsimp only at hu ⊢
      exact hs
    · intro u hu
      dsimp only at hu ⊢
      by_cases he : u = t
      · subst he; rw [Function.update_same] at hu; cases hu
      · rw [Function.update_noteq he] at hu
        exact hinv.doneStarted u hu
  | recheckNotStarted t ht hs =>
    have hlt : s.lock = some t := hinv.mutex t (Or.inl ht)
    have hc0 : s.startCount = 0 := by
      rcases hinv.notStartedCount hs with h0 | ⟨u, hu⟩
      · exact h0
      · have h1 := hinv.mutex u (Or.inr (Or.inr (Or.inl hu)))
        rw [hlt] at h1
        injection h1 with h1
        rw [← h1] at hu
        rw [ht] at hu
        cases hu
    refine ⟨?_, hinv.countLe, ?_, ?_, ?_, ?_, ?_, ?_⟩
    · intro u hu
      dsimp only at hu ⊢
      by_cases he : u = t
      · subst he; exact hlt
      · rw [Function.update_noteq he] at hu
        exact hinv.mutex u hu
    · intro hf
      dsimp only at hf ⊢
      rw [hs] at hf
      exact absurd hf (by decide)
    · intro hf
      dsimp only at hf ⊢
      exact Or.inl hc0
    · intro u hu
      dsimp only at hu ⊢
      by_cases he : u = t
      · subst he
        exact ⟨hs, hc0⟩
      · rw [Function.update_noteq he] at hu
        have h1 := hinv.mutex u (Or.inr (Or.inl hu))
        rw [hlt] at h1
        injection h1 with h1
        exact absurd h1.symm he
    · intro u hu
      dsimp only at hu ⊢
      by_cases he : u = t
      · subst he; rw [Function.update_same] at hu; cases hu
      · rw [Function.update_noteq he] at hu
        have h1 := hinv.mutex u (Or.inr (Or.inr (Or.inl hu)))
        rw [hlt] at h1
        injection h1 with h1
        exact absurd h1.symm he
    · intro u hu
      dsimp only at hu ⊢
      by_cases he : u = t
      · subst he; rw [Function.update_same] at hu; cases hu
      · rw [Function.update_noteq he] at hu
        exact hinv.p4started u hu
    · intro u hu
      dsimp only at hu ⊢
      by_cases he : u = t
      · subst he; rw [Function.update_same] at hu; cases hu
      · rw [Function.update_noteq he] at hu
        exact hinv.doneStarted u hu
  | runStart t ht =>
    have hlt : s.lock = some t := hinv.mutex t (Or.inr (Or.inl ht))
    have hp3 := hinv.p3inv t ht
    refine ⟨?_, ?_, ?_, ?_, ?_, ?_, ?_, ?_⟩
    · intro u hu
      dsimp only at hu ⊢
      by_cases he : u = t
      · subst he; exact hlt
      · rw [Function.update_noteq he] at hu
        exact hinv.mutex u hu
    · show s.startCount + 1 ≤ 1
      rw [hp3.2]
    · intro hf
      dsimp only at hf ⊢
      rw [hp3.1] at hf
      exact absurd hf (by decide)
    · intro hf
      dsimp only at hf ⊢
      exact Or.inr ⟨t, by rw [Function.update_same]⟩
    · intro u hu
      dsimp only at hu ⊢
      by_cases he : u = t
      · subst he; rw [Function.update_same] at hu; cases hu
      · rw [Function.update_noteq he] at hu
        have h1 := hinv.mutex u (Or.inr (Or.inl hu))
        rw [hlt] at h1
        injection h1 with h1
        exact absurd h1.symm he
    · intro u hu
      dsimp only at hu ⊢
      by_cases he : u = t
      · subst he
        refine ⟨hp3.1, ?_⟩
        show s.startCount + 1 = 1
        rw [hp3.2]
      · rw [Function.update_noteq he] at hu
        have h1 := hinv.mutex u (Or.inr (Or.inr (Or.inl hu)))
        rw [hlt] at h1
        injection h1 with h1
        exact absurd h1.symm he
    · intro u hu
      dsimp only at hu ⊢
      by_cases he : u = t
      · subst he; rw [Function.update_same] at hu; cases hu
      · rw [Function.update_noteq he] at hu
        exact hinv.p4started u hu
    · intro u hu
      dsimp only at hu ⊢
      by_cases he : u = t
      · subst he; rw [Function.update_same] at hu; cases hu
      · rw [Function.update_noteq he] at hu
        exact hinv.doneStarted u hu
  | setStarted t ht =>
    have hlt : s.lock = some t := hinv.mutex t (Or.inr (Or.inr (Or.inl ht)))
    have hps := hinv.psetinv t ht
    refine ⟨?_, hinv.countLe, ?_, ?_, ?_, ?_, ?_, ?_⟩
    · intro u hu
      dsimp only at hu ⊢
      by_cases he : u = t
      · subst he; exact hlt
      · rw [Function.update_noteq he] at hu
        exact hinv.mutex u hu
    · intro hf
      dsimp only at hf ⊢
      exact hps.2
    · intro hf
      dsimp only at hf ⊢
      exact absurd hf (by decide)
    · intro u hu
      dsimp only at hu ⊢
      by_cases he : u = t
      · subst he; rw [Function.update_same] at hu; cases hu
      · rw [Function.update_noteq he] at hu
        have h1 := hinv.mutex u (Or.inr (Or.inl hu))
        rw [hlt] at h1
        injection h1 with h1
        exact absurd h1.symm he
    · intro u hu
      dsimp only at hu ⊢
      by_cases he : u = t
      · subst he; rw [Function.update_same] at hu; cases hu
      · rw [Function.update_noteq he] at hu
        have h1 := hinv.mutex u (Or.inr (Or.inr (Or.inl hu)))
        rw [hlt] at h1
        injection h1 with h1
        exact absurd h1.symm he
    · intro u hu
      dsimp only at hu ⊢
    · intro u hu
      dsimp only at hu ⊢
  | release t ht =>
    have hlt : s.lock = some t := hinv.mutex t (Or.inr (Or.inr (Or.inr ht)))
    refine ⟨?_, hinv.countLe, hinv.startedCount, ?_, ?_, ?_, ?_, ?_⟩
    · intro u hu
      dsimp only at hu ⊢
      by_cases he : u = t
      · subst he
        rw [Function.update_same] at hu
        rcases hu with h | h | h | h <;> cases h
      · rw [Function.update_noteq he] at hu
        have h1 := hinv.mutex u hu
        rw [hlt] at h1
        injection h1 with h1
        exact absurd h1.symm he
    · intro hf
      dsimp only at hf ⊢
      have := hinv.p4started t ht
      rw [this] at hf
      exact absurd hf (by decide)
    · intro u hu
      dsimp only at hu ⊢
      by_cases he : u = t
      · subst he; rw [Function.update_same] at hu; cases hu
      · rw [Function.update_noteq he] at hu
        exact hinv.p3inv u hu
    · intro u hu
      dsimp only at hu ⊢
      by_cases he : u = t
      · subst he; rw [Function.update_same] at hu; cases hu
      · rw [Function.update_noteq he] at hu
        exact hinv.psetinv u hu
    · intro u hu
      dsimp only at hu ⊢
      by_cases he : u = t
      · subst he; rw [Function.update_same] at hu; cases hu
      · rw [Function.update_noteq he] at hu
        exact hinv.p4started u hu
    · intro u hu
      dsimp only at hu ⊢
      by_cases he : u = t
      · subst he
        exact hinv.p4started _ ht
      · rw [Function.update_noteq he] at hu
        exact hinv.doneStarted u hu

/-- Every reachable state satisfies the invariant. -/
lemma reach_inv {n : Nat} {s : RState n} (h : Reachable s) : Inv s := by
  induction h with
  | refl => exact inv_init n
  | tail _ hstep ih => exact inv_step ih hstep

/-- The single-thread witness run is reachable. -/
lemma reach_w6 : Reachable w6 := by
  have s1 : Step w0 w1 := Step.checkNotStarted w0 0 rfl rfl
  have s2 : Step w1 w2 :=
    Step.acquire w1 0 (by simp [w1, w0, initState, Function.update_same]) rfl
  have s3 : Step w2 w3 :=
    Step.recheckNotStarted w2 0
      (by simp [w2, w1, w0, initState, Function.update_same]) rfl
  have s4 : Step w3 w4 :=
    Step.runStart w3 0 (by simp [w3, w2, w1, w0, initState, Function.update_same])
  have s5 : Step w4 w5 :=
    Step.setStarted w4 0 (by simp [w4, w3, w2, w1, w0, initState, Function.update_same])
  have s6 : Step w5 w6 :=
    Step.release w5 0 (by simp [w5, w4, w3, w2, w1, w0, initState, Function.update_same])
  exact ((((((Relation.ReflTransGen.refl.tail s1).tail s2).tail s3).tail
    s4).tail s5).tail s6)

/-- Claim C1: for every inbound dispatch in which no handler's filter phase
vetoes, exactly one persisted Message ends in status Handled (`'H'`) — the
inbound one — no matter which handlers raise exceptions in any phase: each
handler exception is caught, the handler's `exception` hook is invoked, and
dispatch continues with the next handler, never propagating to the
caller. -/
theorem C1_inbound_one_handled (apps : List App) (gw : GW) (m : Nat)
    (hveto : ∀ a ∈ apps, a.res .filter ≠ .ret .pyTrue) :
    ((handle_incoming apps gw m).store.countP fun msg => msg.status == 'H') = 1 ∧
    (handle_incoming apps gw m).store.head? = some ⟨'I', 'H'⟩ ∧
    ∀ i a rest ph h, a.res ph = .exn →
      runApps ph ((i, a) :: rest) h =
        ((runApps ph rest h).1,
          Ev.callIn i ph :: Ev.excHook i :: (runApps ph rest h).2.1,
          (runApps ph rest h).2.2) := by
  refine ⟨?_, rfl, ?_⟩
  · rw [handle_incoming_store, List.countP_cons]
    have hz : ((List.range m).map fun _ =>
        Msg.mk 'O' (handle_outgoing apps gw).status).countP
          (fun msg => msg.status == 'H') = 0 := by
      rw [List.countP_eq_zero]
      intro msg hmsg
      simp only [List.mem_map] at hmsg
      obtain ⟨x, hx, rfl⟩ := hmsg
      rcases outLoop_status gw (enumIdx 0 apps).reverse .pyTrue with hC | hSQ
      · simp [handle_outgoing, hC]
      · rcases send_message_cases gw with hS | hQ
        · simp [handle_outgoing, hSQ, hS]
        · simp [handle_outgoing, hSQ, hQ]
    rw [hz]
    simp
  · intro i a rest ph h hexn
    simp [runApps, hexn]

/-- Witness for C1: a single handler that raises in every phase. -/
theorem C1_witness :
    (∀ a ∈ [appExn], a.res .filter ≠ .ret .pyTrue) ∧
    ((handle_incoming [appExn] gw0 1).store.countP
      fun msg => msg.status == 'H') = 1 :=
  ⟨by simp [appExn],
   (C1_inbound_one_handled [appExn] gw0 1 (by simp [appExn])).1⟩

/-- Claim C2 evaluated at the failing input: with a single handler whose
handle method returns the `True` singleton, the parse method is invoked but
the cleanup method never is — the `break` at the `default`-phase check
leaves the whole phase loop, so the cleanup phase is skipped, contradicting
the claim that every handler's cleanup always runs. -/
theorem C2_cleanup_skipped_on_handled :
    Ev.callIn 0 .parse ∈ (handle_incoming [hTrueApp] gw0 0).events ∧
    Ev.callIn 0 .cleanup ∉ (handle_incoming [hTrueApp] gw0 0).events := by
  decide

/-- Claim C3: a filter-phase veto by any handler guarantees that no
handler's parse, handle, default or cleanup method is invoked for this
envelope, and the inbound Message is still finalised Handled. -/
theorem C3_filter_veto_skips_phases (apps : List App) (gw : GW) (m : Nat)
    (h : ∃ a ∈ apps, a.res .filter = .ret .pyTrue) :
    (∀ j ph, ph ≠ Phase.filter →
      Ev.callIn j ph ∉ (handle_incoming apps gw m).events) ∧
    (handle_incoming apps gw m).store.head? = some ⟨'I', 'H'⟩ := by
  refine ⟨?_, rfl⟩
  intro j ph hph hmem
  rw [handle_incoming_callIn] at hmem
  obtain ⟨a, ha, hat⟩ := h
  obtain ⟨i, hi⟩ := mem_enumIdx_of_mem 0 ha
  have hv : (runApps .filter (enumIdx 0 apps) false).2.2 = .veto :=
    runApps_filter_veto _ _ ⟨(i, a), hi, hat⟩
  rw [runPhases_veto _ hv] at hmem
  rcases runApps_events .filter (enumIdx 0 apps) false _ hmem with ⟨k, hk⟩ | ⟨k, hk⟩
  · cases hk
    exact hph rfl
  · cases hk

/-- Witness for C3: a single vetoing handler. -/
theorem C3_witness :
    (∃ a ∈ [vetoApp], a.res .filter = .ret .pyTrue) ∧
    (handle_incoming [vetoApp] gw0 0).store.head? = some ⟨'I', 'H'⟩ :=
  ⟨⟨vetoApp, by simp, rfl⟩,
   (C3_filter_veto_skips_phases [vetoApp] gw0 0 ⟨vetoApp, by simp, rfl⟩).2⟩

/-- Claim C4: when some handler's handle method returns the `True`
singleton, every later-registered handler's handle method is skipped
(short-circuit within the handle phase), and since the `msg.handled` flag is
then set entering the default phase, no handler's default method is invoked
at all. -/
theorem C4_handle_short_circuit (apps : List App) (gw : GW) (m : Nat)
    (hex : ∃ k b, apps.get? k = some b ∧ b.res .handle = .ret .pyTrue) :
    (∀ j, (∃ k b, apps.get? k = some b ∧ b.res .handle = .ret .pyTrue ∧ k < j) →
      Ev.callIn j .handle ∉ (handle_incoming apps gw m).events) ∧
    (∀ j, Ev.callIn j .default ∉ (handle_incoming apps gw m).events) := by
  have hflag : ∃ p ∈ enumIdx 0 apps, p.2.res .handle = .ret .pyTrue := by
    obtain ⟨k, b, hk, hbt⟩ := hex
    obtain ⟨i, hi⟩ := mem_enumIdx_of_mem 0 (List.get?_mem hk)
    exact ⟨(i, b), hi, hbt⟩
  cases hvexit : (runApps .filter (enumIdx 0 apps) false).2.2 with
  | veto =>
    constructor
    · intro j hj hmem
      rw [handle_incoming_callIn, runPhases_veto _ hvexit] at hmem
      rcases runApps_events .filter _ _ _ hmem with ⟨k, hk⟩ | ⟨k, hk⟩ <;> cases hk
    · intro j hmem
      rw [handle_incoming_callIn, runPhases_veto _ hvexit] at hmem
      rcases runApps_events .filter _ _ _ hmem with ⟨k, hk⟩ | ⟨k, hk⟩ <;> cases hk
  | normal =>
    have hh : (runApps .handle (enumIdx 0 apps) false).1 = true :=
      runApps_handle_flag _ _ hflag
    have hev := runPhases_handled _ hvexit hh
    constructor
    · intro j hj hmem
      rw [handle_incoming_callIn, hev, List.mem_append, List.mem_append] at hmem
      rcases hmem with (hmem | hmem) | hmem
      · rcases runApps_events .filter _ _ _ hmem with ⟨k, hk⟩ | ⟨k, hk⟩ <;> cases hk
      · rcases runApps_events .parse _ _ _ hmem with ⟨k, hk⟩ | ⟨k, hk⟩ <;> cases hk
      · obtain ⟨k, b, hk, hbt, hkj⟩ := hj
        exact runApps_handle_skip apps 0 false j ⟨k, b, hk, hbt, by omega⟩ hmem
    · intro j hmem
      rw [handle_incoming_callIn, hev, List.mem_append, List.mem_append] at hmem
      rcases hmem with (hmem | hmem) | hmem
      · rcases runApps_events .filter _ _ _ hmem with ⟨k, hk⟩ | ⟨k, hk⟩ <;> cases hk
      · rcases runApps_events .parse _ _ _ hmem with ⟨k, hk⟩ | ⟨k, hk⟩ <;> cases hk
      · rcases runApps_events .handle _ _ _ hmem with ⟨k, hk⟩ | ⟨k, hk⟩ <;> cases hk

/-- Witness for C4: one handling handler; no default method is invoked. -/
theorem C4_witness :
    Ev.callIn 0 .default ∉ (handle_incoming [hTrueApp] gw0 0).events :=
  (C4_handle_short_circuit [hTrueApp] gw0 0 ⟨0, hTrueApp, rfl, by decide⟩).2 0

/-- Claim C5: outbound dispatch consults the handlers' outgoing methods in
exactly the reverse of the registration order; in particular when no handler
cancels, the first handler registered is the last one consulted. -/
theorem C5_outgoing_reverse_order (apps : List App) (gw : GW)
    (h : ∀ a ∈ apps, a.outgoing ≠ .ret .pyFalse) :
    outIdx (handle_outgoing apps gw) = (List.range apps.length).reverse ∧
    (apps ≠ [] → (outIdx (handle_outgoing apps gw)).getLast? = some 0) := by
  have hl : ∀ p ∈ (enumIdx 0 apps).reverse, p.2.outgoing ≠ .ret .pyFalse := by
    intro p hp
    obtain ⟨i, a⟩ := p
    rw [List.mem_reverse] at hp
    exact h a (mem_of_mem_enumIdx hp)
  have hmap : ((enumIdx 0 apps).reverse).map Prod.fst =
      (List.range apps.length).reverse := by
    rw [List.map_reverse, enumIdx_map_fst, ← List.range_eq_range']
  have hres := outLoop_nocancel gw (enumIdx 0 apps).reverse .pyTrue
    (by decide) hl
  have hout : outIdx (handle_outgoing apps gw) =
      (List.range apps.length).reverse := by
    simp only [outIdx, handle_outgoing]
    rw [hres.1, hmap]
  refine ⟨hout, fun hne => ?_⟩
  rw [hout, List.getLast?_reverse]
  cases apps with
  | nil => exact absurd rfl hne
  | cons a rest => rw [List.length_cons, List.range_succ_eq_map]; rfl

/-- Witness for C5: a single non-cancelling handler. -/
theorem C5_witness :
    (∀ a ∈ [nopApp], a.outgoing ≠ .ret .pyFalse) ∧
    outIdx (handle_outgoing [nopApp] gw0) = (List.range 1).reverse :=
  ⟨by simp [nopApp],
   (C5_outgoing_reverse_order [nopApp] gw0 (by simp [nopApp])).1⟩

/-- Claim C6: if any handler's outgoing method returns the `False`
singleton, the outbound Message is persisted Cancelled (`'C'`),
`handle_outgoing` returns `False` immediately, `send_message` is never
invoked, and consultation stops at the handler `c` that signalled stop: the
consulted indices are a prefix of the reversed registration order whose last
element is `c` (a handler whose outgoing method returns `False`), and no
handler later in the reversed order (registration index below `c`) is ever
consulted. -/
theorem C6_outgoing_cancel (apps : List App) (gw : GW)
    (h : ∃ a ∈ apps, a.outgoing = .ret .pyFalse) :
    (handle_outgoing apps gw).status = 'C' ∧
    (handle_outgoing apps gw).cancelled = true ∧
    Ev.send ∉ (handle_outgoing apps gw).events ∧
    ∃ c b, apps.get? c = some b ∧ b.outgoing = .ret .pyFalse ∧
      (∃ k, outIdx (handle_outgoing apps gw) =
        ((List.range apps.length).reverse).take k) ∧
      (outIdx (handle_outgoing apps gw)).getLast? = some c ∧
      ∀ j, Ev.callOut j ∈ (handle_outgoing apps gw).events → c ≤ j := by
  obtain ⟨a, ha, haf⟩ := h
  obtain ⟨i, hi⟩ := mem_enumIdx_of_mem 0 ha
  have hl : ∃ p ∈ (enumIdx 0 apps).reverse, p.2.outgoing = .ret .pyFalse :=
    ⟨(i, a), by rw [List.mem_reverse]; exact hi, haf⟩
  have hmap : ((enumIdx 0 apps).reverse).map Prod.fst =
      (List.range apps.length).reverse := by
    rw [List.map_reverse, enumIdx_map_fst, ← List.range_eq_range']
  obtain ⟨hs, hc, hns, l1, c, b, l2, hdec, hcl, hbf, hflt⟩ :=
    outLoop_cancel gw (enumIdx 0 apps).reverse .pyTrue (by decide) hl
  have hcb : apps.get? c = some b := by
    have hmem : (c, b) ∈ enumIdx 0 apps := by
      rw [← List.mem_reverse, hdec]
      simp
    obtain ⟨k, hk0, hkg⟩ := get?_of_mem_enumIdx hmem
    rw [show c = k by omega]
    exact hkg
  have hout : outIdx (handle_outgoing apps gw) = List.map Prod.fst l1 ++ [c] := by
    simp only [outIdx, handle_outgoing]
    exact hflt
  have heq : List.map Prod.fst l1 ++ c :: List.map Prod.fst l2 =
      (List.range apps.length).reverse := by
    rw [← hmap, hdec]
    simp
  refine ⟨hs, hc, hns, c, b, hcb, hbf, ⟨l1.length + 1, ?_⟩, ?_, ?_⟩
  · rw [hout, ← heq,
      show l1.length + 1 = (List.map Prod.fst l1).length + 1 by simp,
      take_len_append_cons]
  · rw [hout]
    exact List.getLast?_concat _
  · intro j hj
    have hj2 : j ∈ outIdx (handle_outgoing apps gw) := by
      rw [← callOut_mem_iff]
      exact hj
    rw [hout] at hj2
    rcases List.mem_append.mp hj2 with hj2 | hj2
    · have hpw : (List.map Prod.fst l1 ++ c :: List.map Prod.fst l2).Pairwise
          (· > ·) := by
        rw [heq, List.pairwise_reverse]
        exact List.pairwise_lt_range _
      have hgt := (List.pairwise_append.mp hpw).2.2 j hj2 c (by simp)
      omega
    · simp only [List.mem_singleton] at hj2
      omega

/-- Witness for C6: a single cancelling handler. -/
theorem C6_witness : (handle_outgoing [cancelApp] gw0).status = 'C' :=
  (C6_outgoing_cancel [cancelApp] gw0 ⟨cancelApp, by simp, rfl⟩).1

/-- Claim C7: `send_message` never raises — it totalises every gateway
outcome into a final status — and that status is Sent (`'S'`) exactly when
`ROUTER_URL` is configured and the response code is in `[200, 300)`;
otherwise (other code, transport error, or no `ROUTER_URL`) it is Queued
(`'Q'`). -/
theorem C7_send_message_sent_or_queued (gw : GW) :
    (send_message gw = 'S' ∨ send_message gw = 'Q') ∧
    (send_message gw = 'S' ↔
      gw.routerUrl = true ∧
        ∃ code, gw.response = .ok code ∧ 200 ≤ code ∧ code < 300) := by
  refine ⟨send_message_cases gw, ?_⟩
  rcases gw with ⟨url, resp⟩
  cases url
  · have hQ : send_message ⟨false, resp⟩ = 'Q' := rfl
    rw [hQ]
    constructor
    · intro hq
      exact absurd hq (by decide)
    · rintro ⟨hu, -⟩
      simp at hu
  · cases resp with
    | error e =>
      simp only [send_message]
      rw [if_neg (by decide)]
      constructor
      · intro hq
        exact absurd hq (by decide)
      · rintro ⟨-, c, hc, -⟩
        cases hc
    | ok code =>
      simp only [send_message]
      rw [if_neg (by decide)]
      constructor
      · intro hs
        split_ifs at hs with hdiv
        · exact ⟨by simp, code, rfl, by omega⟩
        · exact absurd hs (by decide)
      · rintro ⟨-, c, hc, h1, h2⟩
        injection hc with hc
        subst hc
        rw [if_pos (by omega)]

/-- Claim C9: in the filter and handle phases only a handler return value
that is exactly the `True` singleton triggers the veto or the
short-circuit; any other returned value (truthy or not) leaves the loop
state untouched and dispatch continues with the next handler. -/
theorem C9_only_True_triggers (i : Nat) (a : App) (rest : List (Nat × App))
    (ph : Phase) (h : Bool) (v : PyVal) (hv : a.res ph = .ret v)
    (hvt : v ≠ .pyTrue) (hph : ph = .filter ∨ ph = .handle) :
    runApps ph ((i, a) :: rest) h =
      ((runApps ph rest h).1, Ev.callIn i ph :: (runApps ph rest h).2.1,
        (runApps ph rest h).2.2) := by
  simp only [runApps, hv]
  rw [if_neg (by simp [hvt]), if_neg (by simp [hvt]), if_neg (by simp [hvt])]

/-- Witness for C9: a handler returning a truthy non-`True` object in the
filter phase neither vetoes nor stops the loop. -/
theorem C9_witness :
    otherApp.res .filter = .ret .pyOther ∧
    runApps .filter [(0, otherApp)] false =
      ((runApps .filter [] false).1,
        Ev.callIn 0 .filter :: (runApps .filter [] false).2.1,
        (runApps .filter [] false).2.2) :=
  ⟨rfl, C9_only_True_triggers 0 otherApp [] .filter false .pyOther rfl
    (by decide) (Or.inl rfl)⟩

/-- Claim C10: in outbound dispatch only a return value that is exactly the
`False` singleton cancels; any other return value continues with the new
signal, and a raising handler continues with the previous (non-`False`)
signal — in both cases the loop proceeds to the next handler and nothing is
cancelled at this step. -/
theorem C10_only_False_cancels (gw : GW) (i : Nat) (a : App)
    (rest : List (Nat × App)) (cs v : PyVal) :
    (a.outgoing = .ret v → v ≠ .pyFalse →
      outLoop gw ((i, a) :: rest) cs =
        { outLoop gw rest v with
            events := Ev.callOut i :: (outLoop gw rest v).events }) ∧
    (a.outgoing = .exn → cs ≠ .pyFalse →
      outLoop gw ((i, a) :: rest) cs =
        { outLoop gw rest cs with
            events := Ev.callOut i :: Ev.excHook i ::
              (outLoop gw rest cs).events }) := by
  constructor
  · intro hr hvf
    simp only [outLoop, hr]
    rw [if_neg hvf]
  · intro hr hcs
    simp only [outLoop, hr]
    rw [if_neg hcs]

/-- Witness for C10: a truthy non-`False` return continues the loop. -/
theorem C10_witness :
    otherApp.outgoing = .ret .pyOther ∧
    outLoop gw0 [(0, otherApp)] .pyTrue =
      { outLoop gw0 [] .pyOther with
          events := Ev.callOut 0 :: (outLoop gw0 [] .pyOther).events } :=
  ⟨rfl, (C10_only_False_cancels gw0 0 otherApp [] .pyTrue .pyOther).1 rfl
    (by decide)⟩

/-- Claim C8: startup is lazy and idempotent — under any interleaving of any
number of concurrent first calls to `get_router`, the `start()` body runs at
most once at every reachable state, and exactly once when every thread has
finished. -/
theorem C8_get_router_start_once (n : Nat) (s : RState n) (h : Reachable s) :
    s.startCount ≤ 1 ∧
    ((∀ t, s.pcs t = PC.done) → 0 < n → s.startCount = 1) := by
  have hinv := reach_inv h
  refine ⟨hinv.countLe, fun hall hn => ?_⟩
  exact hinv.startedCount (hinv.doneStarted ⟨0, hn⟩ (hall ⟨0, hn⟩))

/-- Witness for C8: the single-thread run reaches the all-done state with
the `start` body executed exactly once. -/
theorem C8_witness :
    Reachable w6 ∧ w6.startCount ≤ 1 ∧
      ((∀ t, w6.pcs t = PC.done) → 0 < 1 → w6.startCount = 1) :=
  ⟨reach_w6, C8_get_router_start_once 1 w6 reach_w6⟩

end HttpRouter
